import Mathlib

/-!
Verification of the flatcode rule-based path filter and pruning directory
walker, shallowly embedded from the Python sources.

Conventions of the embedding:
* A candidate path relative to the scan root is a `List String` of path
  segments (as produced by `Path.relative_to`); its POSIX form is the
  segments joined with `/` and its final segment plays the role of
  `Path.name`.
* Rules are ordered pairs `(pattern, is_inclusion)` exactly as produced by
  `load_ignore_rules` in `src/flatcode/cli.py`.
* `fnmatch.fnmatch` (CPython, POSIX `normcase` is the identity) is embedded
  as a glob-token compiler plus a backtracking matcher over `List Char`.
-/

/-! ### The fnmatch glob engine (CPython `fnmatch.translate` semantics)

`*` matches any run of characters (including `/`), `?` one character,
`[...]` a character class with optional leading `!` negation and `a-b`
ranges (reversed ranges are empty, as in the compiled regex), and an
unterminated `[` is a literal.  Consecutive `*` collapse in CPython's
translation; the backtracking matcher below gives them the same meaning
without collapsing. -/

inductive GTok : Type where
  | star : GTok
  | anyc : GTok
  | lit (c : Char) : GTok
  | cls (negate : Bool) (items : List (Char × Char)) : GTok
deriving DecidableEq, Repr

/-- Split a character list at the first `]`, returning the part before it
and the remainder after it; `none` when no `]` occurs. -/
def splitRB : List Char → Option (List Char × List Char)
  | [] => none
  | ']' :: r => some ([], r)
  | c :: r =>
    match splitRB r with
    | some (s, rem) => some (c :: s, rem)
    | none => none

/-- Scan of a character-class body, mirroring `fnmatch.translate`:
after `[`, an initial `!` and then an initial `]` are part of the class
body, and the next `]` closes it.  Returns the body and the remainder. -/
def scanClass : List Char → Option (List Char × List Char)
  | '!' :: ']' :: r =>
    match splitRB r with
    | some (s, rem) => some ('!' :: ']' :: s, rem)
    | none => none
  | '!' :: r =>
    match splitRB r with
    | some (s, rem) => some ('!' :: s, rem)
    | none => none
  | ']' :: r =>
    match splitRB r with
    | some (s, rem) => some (']' :: s, rem)
    | none => none
  | l => splitRB l

/-- Items of a character-class body: `a-b` is a range (empty when
reversed, matching the compiled regex), any other character stands for
itself; a trailing `-` is literal. -/
def classItems : List Char → List (Char × Char)
  | a :: '-' :: b :: rest => (a, b) :: classItems rest
  | a :: rest => (a, a) :: classItems rest
  | [] => []

/-- Build the class token from a scanned class body (leading `!` negates). -/
def mkCls (stuff : List Char) : GTok :=
  match stuff with
  | '!' :: rest => .cls true (classItems rest)
  | _ => .cls false (classItems stuff)

/-- Fuelled tokenizer for glob patterns; `fuel` bounds the pattern length,
so `lexGlob` below always supplies enough. -/
def lexGo : Nat → List Char → List GTok
  | _, [] => []
  | 0, _ => []
  | fuel + 1, '*' :: p => .star :: lexGo fuel p
  | fuel + 1, '?' :: p => .anyc :: lexGo fuel p
  | fuel + 1, '[' :: p =>
    match scanClass p with
    | some (stuff, rem) => mkCls stuff :: lexGo fuel rem
    | none => .lit '[' :: lexGo fuel p
  | fuel + 1, c :: p => .lit c :: lexGo fuel p

/-- Compile a glob pattern into tokens. -/
def lexGlob (pat : List Char) : List GTok :=
  lexGo pat.length pat

/-- Character-class membership. -/
def memCls (items : List (Char × Char)) (c : Char) : Bool :=
  items.any (fun it => decide (it.1 ≤ c) && decide (c ≤ it.2))

/-- Fuelled backtracking matcher for glob tokens against a character
list; the fuel only needs to dominate `toks.length + s.length`. -/
def matchGo : Nat → List GTok → List Char → Bool
  | _, [], s => s.isEmpty
  | 0, _ :: _, _ => false
  | fuel + 1, .star :: p, s =>
    matchGo fuel p s ||
      (match s with
       | [] => false
       | _ :: s2 => matchGo fuel (.star :: p) s2)
  | fuel + 1, .anyc :: p, s =>
    match s with
    | [] => false
    | _ :: s2 => matchGo fuel p s2
  | fuel + 1, .lit c :: p, s =>
    match s with
    | [] => false
    | d :: s2 => c == d && matchGo fuel p s2
  | fuel + 1, .cls neg items :: p, s =>
    match s with
    | [] => false
    | d :: s2 => (neg != memCls items d) && matchGo fuel p s2

/-- Full match of a token list against a character list. -/
def matchToks (toks : List GTok) (s : List Char) : Bool :=
  matchGo (toks.length + s.length) toks s

/-- Embedding of `fnmatch.fnmatch(s, pat)` on POSIX. -/
def fnmatchStr (s pat : String) : Bool :=
  matchToks (lexGlob pat.data) s.data

/-! ### Python string operations used by the filter -/

/-- Embedding of Python `s.startswith(p)`. -/
def strStartsWith (s p : String) : Bool :=
  p.data.isPrefixOf s.data

/-- Embedding of Python `s.endswith(p)`. -/
def strEndsWith (s p : String) : Bool :=
  p.data.isSuffixOf s.data

/-- Embedding of `PurePath.as_posix()` on a segment list: the segments
joined by `/`. -/
def posixOf : List String → String
  | [] => ""
  | [s] => s
  | s :: rest => s ++ "/" ++ posixOf rest

/-- Embedding of `PurePath.name`: the final segment. -/
def nameOf (segs : List String) : String :=
  segs.getLastD ""

/-- Index of the last `.` in a character list, if any. -/
def lastDotIdx : List Char → Option Nat
  | [] => none
  | c :: rest =>
    match lastDotIdx rest with
    | some j => some (j + 1)
    | none => if c == '.' then some 0 else none

/-- Embedding of `PurePath.suffix`: the part of the name from its last
dot, unless that dot is the first or last character. -/
def suffixOf (name : String) : String :=
  match lastDotIdx name.data with
  | some i => if 0 < i ∧ i + 1 < name.data.length then ⟨name.data.drop i⟩ else ""
  | none => ""

/-! ### `is_path_ignored` from `src/flatcode/cli.py` (lines 102-127) -/

namespace Cli

/-- Single-rule match of `cli.is_path_ignored`: a pattern ending in `/`
matches when the POSIX relative path starts with it; any other pattern
matches when the full relative path or the basename matches it as an
`fnmatch` glob. -/
def rule_match (segs : List String) (pattern : String) : Bool :=
  if strEndsWith pattern "/" then
    strStartsWith (posixOf segs) pattern
  else
    fnmatchStr (posixOf segs) pattern || fnmatchStr (nameOf segs) pattern

/-- `cli.is_path_ignored`: fold over the rules in file order, the last
matching rule setting the verdict to the negation of its inclusion flag;
default not ignored. -/
def is_path_ignored (segs : List String) (rules : List (String × Bool)) : Bool :=
  rules.foldl
    (fun ignored r => if rule_match segs r.1 then !r.2 else ignored)
    false

/-- The specification's reading of the same function (spec section 4.1):
the last matching rule in file order determines the verdict, default not
ignored.  Stated with `find?` over the reversed rule list. -/
def spec_last_match_wins (segs : List String) (rules : List (String × Bool)) : Bool :=
  match rules.reverse.find? (fun r => rule_match segs r.1) with
  | some r => !r.2
  | none => false

end Cli

/-! ### `is_path_ignored` from `flatcode/core/ignore.py`

`scanner.py` and the test suite import `is_path_ignored` (with an
`is_directory` keyword) from `flatcode.core.ignore`, but the `ignore.py`
present under `src/` does not define it.  It is therefore modelled from
the specification. -/

namespace Ignore

/-- Modelled from the spec: the single-rule matcher of the missing
`is_path_ignored` in `flatcode/core/ignore.py` (spec section 4.1).  A
pattern ending in `/` is a directory-prefix rule: it matches when the
candidate — with a synthetic trailing slash if `is_directory` — equals
the pattern or starts with the pattern; any other pattern matches when
the full relative path or the basename matches it as a glob. -/
def rule_match (segs : List String) (is_directory : Bool) (pattern : String) : Bool :=
  let posix := posixOf segs
  if strEndsWith pattern "/" then
    let cand := if is_directory then posix ++ "/" else posix
    decide (cand = pattern) || strStartsWith cand pattern
  else
    fnmatchStr posix pattern || fnmatchStr (nameOf segs) pattern

/-- Modelled from the spec: the missing `is_path_ignored` of
`flatcode/core/ignore.py` (spec section 4.1): rules are applied in file
order, each matching rule setting the verdict to the negation of its
inclusion flag; default not ignored. -/
def is_path_ignored (segs : List String) (rules : List (String × Bool))
    (is_directory : Bool) : Bool :=
  rules.foldl
    (fun ignored r => if rule_match segs is_directory r.1 then !r.2 else ignored)
    false

end Ignore

/-! ### `FileContext` from `src/flatcode/models.py` and the tokenizer -/

/-- `models.FileContext`: the immutable record for one accepted file.
`path` is the absolute path (root segments followed by the relative
segments), `rel_path` the POSIX relative path. -/
structure FileContext where
  path : List String
  rel_path : String
  content : String
  token_count : Nat
deriving DecidableEq, Repr

namespace Tokenizer

/-- `utils/tokenizer.py Tokenizer.count`: the length of the tiktoken
encoding of the text.  The encoding itself is an external library and is
a parameter of the embedding. -/
def count (encode : String → List Nat) (text : String) : Nat :=
  (encode text).length

/-- The fallback estimation of `Tokenizer.count` when the encoder
raises: `len(text) // 4`. -/
def countFallback (text : String) : Nat :=
  text.length / 4

end Tokenizer

/-! ### The filesystem model

A directory entry is a named file (with a readability flag for open/read
failures and its raw bytes) or a named directory with children.  The
mutual inductive keeps every function on it structurally recursive, so
concrete scans evaluate inside `decide`. -/

mutual
inductive Dirent : Type where
  | file (name : String) (readable : Bool) (bytes : List Nat) : Dirent
  | dir (name : String) (children : DirList) : Dirent
deriving DecidableEq

inductive DirList : Type where
  | nil : DirList
  | cons (head : Dirent) (tail : DirList) : DirList
deriving DecidableEq
end

/-- Entry name, as listed by `os.walk`. -/
def direntName : Dirent → String
  | .file n _ _ => n
  | .dir n _ => n

/-- Whether an entry goes into the `dirs` list of an `os.walk` triple. -/
def isDirectory : Dirent → Bool
  | .file _ _ _ => false
  | .dir _ _ => true

/-- Convenience constructor for concrete trees. -/
def dlist : List Dirent → DirList
  | [] => .nil
  | d :: t => .cons d (dlist t)

/-! ### Strict UTF-8 decoding, as by `Path.read_text(encoding="utf-8")` -/

/-- Strict UTF-8 decoder: `none` models `UnicodeDecodeError`.  Rejects
truncated sequences, bad continuation bytes, overlong forms, surrogates
and code points above `U+10FFFF`, as CPython's strict codec does. -/
def decodeUtf8 : List Nat → Option (List Char)
  | [] => some []
  | b :: rest =>
    if b < 0x80 then
      (decodeUtf8 rest).map (fun cs => Char.ofNat b :: cs)
    else if 0xC2 ≤ b ∧ b ≤ 0xDF then
      match rest with
      | c1 :: rest2 =>
        if 0x80 ≤ c1 ∧ c1 ≤ 0xBF then
          (decodeUtf8 rest2).map
            (fun cs => Char.ofNat ((b - 0xC0) * 0x40 + (c1 - 0x80)) :: cs)
        else none
      | [] => none
    else if 0xE0 ≤ b ∧ b ≤ 0xEF then
      match rest with
      | c1 :: c2 :: rest2 =>
        let lo1 := if b = 0xE0 then 0xA0 else 0x80
        let hi1 := if b = 0xED then 0x9F else 0xBF
        if (lo1 ≤ c1 ∧ c1 ≤ hi1) ∧ (0x80 ≤ c2 ∧ c2 ≤ 0xBF) then
          (decodeUtf8 rest2).map
            (fun cs =>
              Char.ofNat ((b - 0xE0) * 0x1000 + (c1 - 0x80) * 0x40 + (c2 - 0x80)) :: cs)
        else none
      | _ => none
    else if 0xF0 ≤ b ∧ b ≤ 0xF4 then
      match rest with
      | c1 :: c2 :: c3 :: rest2 =>
        let lo1 := if b = 0xF0 then 0x90 else 0x80
        let hi1 := if b = 0xF4 then 0x8F else 0xBF
        if (lo1 ≤ c1 ∧ c1 ≤ hi1) ∧ (0x80 ≤ c2 ∧ c2 ≤ 0xBF) ∧ (0x80 ≤ c3 ∧ c3 ≤ 0xBF) then
          (decodeUtf8 rest2).map
            (fun cs =>
              Char.ofNat ((b - 0xF0) * 0x40000 + (c1 - 0x80) * 0x1000 +
                (c2 - 0x80) * 0x40 + (c3 - 0x80)) :: cs)
        else none
      | _ => none
    else none

/-! ### `ProjectScanner` from `src/flatcode/core/scanner.py` -/

/-- `ProjectScanner.__init__`: root, rules and extension set; `encode`
stands for the external tiktoken encoding used by `Tokenizer.count`. -/
structure ProjectScanner where
  root_dir : List String
  ignore_rules : List (String × Bool)
  extensions : List String
  encode : String → List Nat

namespace ProjectScanner

/-- `self.match_all = "*" in extensions`. -/
def match_all (S : ProjectScanner) : Bool :=
  S.extensions.contains "*"

/-- `ProjectScanner._is_binary_file` (scanner.py lines 18-29): `true`
exactly when the first 1024 bytes contain a NUL byte or the file cannot
be opened/read. -/
def _is_binary_file (readable : Bool) (bytes : List Nat) : Bool :=
  if readable then (bytes.take 1024).contains 0 else true

/-- The per-file body of `ProjectScanner.scan` (scanner.py lines 58-92):
ignore check, extension check, binary check, then UTF-8 read; a failure
at any step skips the file, otherwise a `FileContext` is produced.  An
unreadable file is already rejected by the binary check. -/
def process_file (S : ProjectScanner) (rel : List String) : Dirent → Option FileContext
  | .dir _ _ => none
  | .file n readable bytes =>
    let segs := rel ++ [n]
    if Ignore.is_path_ignored segs S.ignore_rules false then none
    else if !S.match_all && !(S.extensions.contains (suffixOf n) || S.extensions.contains n) then
      none
    else if _is_binary_file readable bytes then none
    else
      match decodeUtf8 bytes with
      | some cs =>
        some
          { path := S.root_dir ++ segs
            rel_path := posixOf segs
            content := ⟨cs⟩
            token_count := Tokenizer.count S.encode ⟨cs⟩ }
      | none => none

/-- The entry names of one directory listing, as touched by `os.walk`
when it lists the directory at `rel`. -/
def levelVisits (rel : List String) : DirList → List (List String)
  | .nil => []
  | .cons d t => (rel ++ [direntName d]) :: levelVisits rel t

/-- The records produced from the files of one directory listing, in
listing order (the `files` loop of one `os.walk` triple). -/
def levelRecs (S : ProjectScanner) (rel : List String) : DirList → List FileContext
  | .nil => []
  | .cons d t =>
    match S.process_file rel d with
    | some fc => fc :: levelRecs S rel t
    | none => levelRecs S rel t

mutual
/-- The walk below one directory entry: for a directory at `rel`, its
listing is read, its files are processed, and the walk recurses into its
subdirectories.  Returns `(visited entry paths, records)`. -/
def walkDirent (S : ProjectScanner) (rel : List String) :
    Dirent → List (List String) × List FileContext
  | .file _ _ _ => ([], [])
  | .dir n cs =>
    let rel2 := rel ++ [n]
    let deep := walkList S rel2 cs
    (levelVisits rel2 cs ++ deep.1, levelRecs S rel2 cs ++ deep.2)

/-- The walk into the subdirectories of a listed directory: exactly the
children that are directories and survive the pruning check
`is_path_ignored(child, rules, is_directory=True)` are entered, in
listing order (scanner.py lines 43-55 and the recursion of `os.walk`). -/
def walkList (S : ProjectScanner) (rel : List String) :
    DirList → List (List String) × List FileContext
  | .nil => ([], [])
  | .cons d t =>
    if isDirectory d && !Ignore.is_path_ignored (rel ++ [direntName d]) S.ignore_rules true then
      let here := walkDirent S rel d
      let rest := walkList S rel t
      (here.1 ++ rest.1, here.2 ++ rest.2)
    else walkList S rel t
end

/-- `ProjectScanner.scan` over the children of the root directory: the
records of the root listing followed by those of the pruned walk, in
`os.walk` top-down order. -/
def scan (S : ProjectScanner) (children : DirList) : List FileContext :=
  levelRecs S [] children ++ (walkList S [] children).2

/-- The entry paths the scan touches: every name of every directory
listing that `os.walk` reads. -/
def scanVisits (S : ProjectScanner) (children : DirList) : List (List String) :=
  levelVisits [] children ++ (walkList S [] children).1

/-- `os.walk` applied to a missing or non-directory root yields no
triples at all (its `scandir` raises and `onerror` is `None`), so
`ProjectScanner.scan` yields nothing there; `none` models such a root. -/
def scanRoot (S : ProjectScanner) : Option DirList → List FileContext
  | none => []
  | some children => S.scan children

/-- The visits of the scan for a possibly invalid root. -/
def scanRootVisits (S : ProjectScanner) : Option DirList → List (List String)
  | none => []
  | some children => S.scanVisits children

end ProjectScanner

/-- The root guard of `cli.py main` (lines 227-229): a root that is not
a directory is reported as an error before any scan begins; otherwise
the scan runs. -/
def mainScan (S : ProjectScanner) : Option DirList → Except String (List FileContext)
  | none => Except.error "Error: the path is not a valid directory."
  | some children => Except.ok (S.scan children)

/-- All files of a tree with their full relative segment paths,
readability and bytes (for stating which files can appear in a scan). -/
structure FoundFile where
  segs : List String
  readable : Bool
  bytes : List Nat
deriving DecidableEq

mutual
/-- Files under one entry. -/
def filesOfD (rel : List String) : Dirent → List FoundFile
  | .file n r b => [⟨rel ++ [n], r, b⟩]
  | .dir n cs => filesOfL (rel ++ [n]) cs

/-- Files under a listing. -/
def filesOfL (rel : List String) : DirList → List FoundFile
  | .nil => []
  | .cons d t => filesOfD rel d ++ filesOfL rel t
end

/-! ### Auxiliary notions for the stated properties -/

/-- `p` lies strictly below `base`: `base` is a proper segment-wise
ancestor of `p`. -/
def isUnder (base p : List String) : Bool :=
  base.isPrefixOf p && decide (base.length < p.length)

mutual
/-- Two entries describe the same unchanged filesystem object, with each
directory's children possibly listed in a different order (as two
`os.walk` runs over an unchanged tree may do). -/
inductive EquivD : Dirent → Dirent → Prop where
  | file (n : String) (r : Bool) (b : List Nat) : EquivD (.file n r b) (.file n r b)
  | dir (n : String) {cs cs2 : DirList} : EquivL cs cs2 → EquivD (.dir n cs) (.dir n cs2)

/-- Permutation of directory listings with `EquivD`-equivalent entries. -/
inductive EquivL : DirList → DirList → Prop where
  | nil : EquivL .nil .nil
  | cons {d d2 : Dirent} {l l2 : DirList} :
      EquivD d d2 → EquivL l l2 → EquivL (.cons d l) (.cons d2 l2)
  | swap (d e : Dirent) (l : DirList) :
      EquivL (.cons d (.cons e l)) (.cons e (.cons d l))
  | trans {a b c : DirList} : EquivL a b → EquivL b c → EquivL a c
end

/-! ### Concrete instances used by the claims -/

/-- The C2 scanner: `node_modules/` excluded. -/
def scanner2 : ProjectScanner :=
  { root_dir := ["r"], ignore_rules := [("node_modules/", false)],
    extensions := [".py", ".js"], encode := fun _ => [] }

/-- The C2 tree: `node_modules/deep/nested/index.js` plus a sibling
`main.py`. -/
def tree2 : DirList :=
  dlist
    [ .dir "node_modules"
        (dlist [.dir "deep" (dlist [.dir "nested" (dlist [.file "index.js" true [104, 105]])])])
    , .file "main.py" true [104, 105] ]

/-- The C9 rule list: a directory exclusion followed by an inclusion of
a specific file under that directory. -/
def rules9 : List (String × Bool) :=
  [("logs/", false), ("logs/important.log", true)]

/-- The C9 scanner: match-all extensions, C9 rule list. -/
def scanner9 : ProjectScanner :=
  { root_dir := ["r"], ignore_rules := rules9,
    extensions := ["*"], encode := fun _ => [] }

/-- The C9 tree: `logs/important.log` plus a sibling `main.py`. -/
def tree9 : DirList :=
  dlist
    [ .dir "logs" (dlist [.file "important.log" true [104, 105]])
    , .file "main.py" true [104, 105] ]

/-- The C5 and C7 scanner: no rules, match-all extensions. -/
def scanner5 : ProjectScanner :=
  { root_dir := ["r"], ignore_rules := [], extensions := ["*"], encode := fun _ => [] }

/-- The C5 tree: a text file and a binary file (NUL in its first bytes). -/
def tree5 : DirList :=
  dlist
    [ .file "main.py" true [104, 105]
    , .file "logo.png" true [137, 80, 78, 71, 0, 13] ]

/-! ### List and string helper lemmas -/

theorem isPrefixOf_ex {α : Type} [BEq α] [LawfulBEq α] :
    ∀ (a b : List α), a.isPrefixOf b = true ↔ ∃ t, b = a ++ t
  | [], b => by simp [List.isPrefixOf]
  | a :: as, [] => by simp [List.isPrefixOf]
  | a :: as, b :: bs => by
    simp only [List.isPrefixOf, Bool.and_eq_true, beq_iff_eq, isPrefixOf_ex as bs,
      List.cons_append, List.cons.injEq]
    constructor
    · rintro ⟨h1, t, h2⟩; exact ⟨t, h1.symm, h2⟩
    · rintro ⟨t, h1, h2⟩; exact ⟨h1.symm, t, h2⟩

theorem isPrefixOf_self_app {α : Type} [BEq α] [LawfulBEq α] (a t : List α) :
    a.isPrefixOf (a ++ t) = true :=
  (isPrefixOf_ex a (a ++ t)).2 ⟨t, rfl⟩

theorem isPrefixOf_app_right {α : Type} [BEq α] [LawfulBEq α] {a b : List α} (c : List α)
    (h : a.isPrefixOf b = true) : a.isPrefixOf (b ++ c) = true := by
  obtain ⟨t, rfl⟩ := (isPrefixOf_ex a b).1 h
  exact (isPrefixOf_ex _ _).2 ⟨t ++ c, by simp⟩

theorem strEndsWith_slash (s : String) : strEndsWith (s ++ "/") "/" = true := by
  have h : (s ++ "/").data = s.data ++ ['/'] := String.data_append s "/"
  simp [strEndsWith, List.isSuffixOf, h]

theorem strStartsWith_app (p t : String) : strStartsWith (p ++ t) p = true := by
  have h : (p ++ t).data = p.data ++ t.data := String.data_append p t
  simp only [strStartsWith, h]
  exact isPrefixOf_self_app _ _

theorem posixOf_append :
    ∀ (a b : List String), a ≠ [] → b ≠ [] →
      posixOf (a ++ b) = posixOf a ++ "/" ++ posixOf b
  | [], _, ha, _ => absurd rfl ha
  | [x], b, _, hb => by
    cases b with
    | nil => exact absurd rfl hb
    | cons y ys => simp [posixOf]
  | x :: x2 :: as, b, _, hb => by
    have ih := posixOf_append (x2 :: as) b (by simp) hb
    calc posixOf ((x :: x2 :: as) ++ b)
        = x ++ "/" ++ posixOf ((x2 :: as) ++ b) := rfl
      _ = x ++ "/" ++ (posixOf (x2 :: as) ++ "/" ++ posixOf b) := by rw [ih]
      _ = posixOf (x :: x2 :: as) ++ "/" ++ posixOf b := by
          show _ = (x ++ "/" ++ posixOf (x2 :: as)) ++ "/" ++ posixOf b
          simp [String.append_assoc]

/-- Folding the rule list with an update on each match equals the
verdict of the last matching rule (or the initial verdict). -/
theorem foldl_last_match (m : String × Bool → Bool) :
    ∀ (rules : List (String × Bool)) (init : Bool),
      rules.foldl (fun ig r => if m r then !r.2 else ig) init =
        (match rules.reverse.find? m with
         | some r => !r.2
         | none => init)
  | [], init => rfl
  | r :: rs, init => by
    have ih := foldl_last_match m rs (if m r then !r.2 else init)
    simp only [List.foldl_cons, List.reverse_cons, List.find?_append] at ih ⊢
    rw [ih]
    cases h : List.find? m rs.reverse with
    | some x => simp [Option.or]
    | none =>
      cases hm : m r <;> simp [Option.or, List.find?, hm]

/-! ### Fuel congruence and one-step laws of the glob matcher -/

theorem matchGo_congr :
    ∀ (f1 : Nat) (f2 : Nat) (toks : List GTok) (s : List Char),
      toks.length + s.length ≤ f1 → toks.length + s.length ≤ f2 →
      matchGo f1 toks s = matchGo f2 toks s := by
  intro f1
  induction f1 with
  | zero =>
    intro f2 toks s h1 _
    cases toks with
    | nil => cases f2 <;> simp [matchGo]
    | cons t ts => simp at h1
  | succ n ih =>
    intro f2 toks s h1 h2
    cases toks with
    | nil => cases f2 <;> simp [matchGo]
    | cons t ts =>
      cases f2 with
      | zero => simp at h2
      | succ m =>
        simp only [List.length_cons] at h1 h2
        cases t with
        | star =>
          cases s with
          | nil =>
            simp only [matchGo]
            rw [ih m ts [] (by simpa using h1) (by simpa using h2)]
          | cons c s2 =>
            simp only [List.length_cons] at h1 h2
            simp only [matchGo]
            rw [ih m ts (c :: s2) (by simp; omega) (by simp; omega),
              ih m (.star :: ts) s2 (by simp; omega) (by simp; omega)]
        | anyc =>
          cases s with
          | nil => simp [matchGo]
          | cons c s2 =>
            simp only [List.length_cons] at h1 h2
            simp only [matchGo]
            rw [ih m ts s2 (by omega) (by omega)]
        | lit c =>
          cases s with
          | nil => simp [matchGo]
          | cons d s2 =>
            simp only [List.length_cons] at h1 h2
            simp only [matchGo]
            rw [ih m ts s2 (by omega) (by omega)]
        | cls neg items =>
          cases s with
          | nil => simp [matchGo]
          | cons d s2 =>
            simp only [List.length_cons] at h1 h2
            simp only [matchGo]
            rw [ih m ts s2 (by omega) (by omega)]

theorem matchToks_star (p : List GTok) (s : List Char) :
    matchToks (.star :: p) s =
      (matchToks p s ||
        match s with
        | [] => false
        | _ :: s2 => matchToks (.star :: p) s2) := by
  cases s with
  | nil => simp [matchToks, matchGo]
  | cons c s2 =>
    show matchGo (p.length + 1 + (s2.length + 1)) (.star :: p) (c :: s2) = _
    rw [show p.length + 1 + (s2.length + 1) = p.length + (s2.length + 1) + 1 from by omega]
    show (matchGo (p.length + (s2.length + 1)) p (c :: s2) ||
        matchGo (p.length + (s2.length + 1)) (.star :: p) s2) =
      (matchToks p (c :: s2) || matchToks (.star :: p) s2)
    rw [matchGo_congr (p.length + (s2.length + 1)) ((.star :: p).length + s2.length)
      (.star :: p) s2 (by simp; omega) (by simp)]
    rfl

theorem matchToks_star_absorb :
    ∀ (s : List Char) (p : List GTok) (t : List Char),
      matchToks p t = true → matchToks (.star :: p) (s ++ t) = true := by
  intro s
  induction s with
  | nil =>
    intro p t h
    rw [List.nil_append, matchToks_star, h, Bool.true_or]
  | cons c s2 ih =>
    intro p t h
    rw [List.cons_append, matchToks_star]
    have h2 : matchToks (.star :: p) (s2 ++ t) = true := ih p t h
    simp [h2]

/-! ### Claims C1, C3, C4: matching semantics -/

/-- C1: for every rule list and candidate path, `is_path_ignored` returns
the verdict of the last matching rule in file order (default: not
ignored); in particular for the rules
`[("*.log", exclusion), ("important.log", inclusion)]` the path
`a/important.log` is not ignored while `a/other.log` is ignored. -/
theorem C1_last_match_wins :
    (∀ (segs : List String) (rules : List (String × Bool)),
        Cli.is_path_ignored segs rules = Cli.spec_last_match_wins segs rules) ∧
      Cli.is_path_ignored ["a", "important.log"]
        [("*.log", false), ("important.log", true)] = false ∧
      Cli.is_path_ignored ["a", "other.log"]
        [("*.log", false), ("important.log", true)] = true := by
  refine ⟨fun segs rules => ?_, by decide, by decide⟩
  unfold Cli.is_path_ignored Cli.spec_last_match_wins
  exact foldl_last_match (fun r => Cli.rule_match segs r.1) rules false

/-- C3: a pattern ending in `/` matches the directory entry itself (the
candidate with a synthetic trailing slash equals the pattern), every
candidate that starts with the pattern, and hence every descendant of
the named directory. -/
theorem C3_directory_rule :
    ∀ (pattern : String) (segs : List String),
      strEndsWith pattern "/" = true →
      (posixOf segs ++ "/" = pattern → Ignore.rule_match segs true pattern = true) ∧
        (∀ d : Bool, strStartsWith (posixOf segs) pattern = true →
          Ignore.rule_match segs d pattern = true) ∧
        (∀ base rest, base ≠ [] → rest ≠ [] → segs = base ++ rest →
          posixOf base ++ "/" = pattern →
          ∀ d : Bool, Ignore.rule_match segs d pattern = true) := by
  intro pattern segs hend
  have main : ∀ d : Bool, strStartsWith (posixOf segs) pattern = true →
      Ignore.rule_match segs d pattern = true := by
    intro d hsw
    unfold Ignore.rule_match
    cases d with
    | false => simp [hend, hsw]
    | true =>
      have h2 : strStartsWith (posixOf segs ++ "/") pattern = true := by
        unfold strStartsWith at hsw ⊢
        rw [String.data_append]
        exact isPrefixOf_app_right _ hsw
      simp [hend, h2]
  refine ⟨?_, main, ?_⟩
  · intro heq
    unfold Ignore.rule_match
    simp [hend, heq]
  · intro base rest hb hr hsegs hpat d
    subst hsegs
    apply main d
    rw [posixOf_append base rest hb hr, ← hpat]
    exact strStartsWith_app _ _

/-- Witness for C3 at the concrete directory rule `logs/`: it matches
the directory entry `logs` itself and the descendant `logs/a.txt`. -/
theorem C3_directory_rule_witness :
    Ignore.rule_match ["logs"] true "logs/" = true ∧
      Ignore.rule_match ["logs", "a.txt"] false "logs/" = true :=
  ⟨(C3_directory_rule "logs/" ["logs"] (by decide)).1 (by decide),
   (C3_directory_rule "logs/" ["logs", "a.txt"] (by decide)).2.2 ["logs"] ["a.txt"]
     (by decide) (by decide) rfl (by decide) false⟩

/-- C4: a pattern not ending in `/` matches when the full relative path
or the basename alone matches the glob; `*` absorbs any run of
characters (including `/`); in particular `*.log` matches
`deep/dir/app.log` via its basename. -/
theorem C4_glob_rule :
    (∀ (pattern : String) (segs : List String),
        strEndsWith pattern "/" = false →
        Cli.rule_match segs pattern =
          (fnmatchStr (posixOf segs) pattern || fnmatchStr (nameOf segs) pattern)) ∧
      (∀ (s t : List Char) (p : List GTok),
          matchToks p t = true → matchToks (.star :: p) (s ++ t) = true) ∧
      fnmatchStr (nameOf ["deep", "dir", "app.log"]) "*.log" = true ∧
      Cli.rule_match ["deep", "dir", "app.log"] "*.log" = true := by
  refine ⟨?_, fun s t p h => matchToks_star_absorb s p t h, by decide, by decide⟩
  intro pattern segs hend
  unfold Cli.rule_match
  simp [hend]

/-- Witness for C4 at concrete inputs: the glob-rule equation at
`*.log` against `a/b.log`, and star absorption of `a/` before `x`. -/
theorem C4_glob_rule_witness :
    Cli.rule_match ["a", "b.log"] "*.log" =
        (fnmatchStr (posixOf ["a", "b.log"]) "*.log" ||
          fnmatchStr (nameOf ["a", "b.log"]) "*.log") ∧
      matchToks (.star :: [GTok.lit 'x']) (['a', '/'] ++ ['x']) = true :=
  ⟨C4_glob_rule.1 "*.log" ["a", "b.log"] (by decide),
   C4_glob_rule.2.1 ['a', '/'] ['x'] [GTok.lit 'x'] (by decide)⟩

/-! ### Claims C6, C9, C10 -/

/-- C6: a root that is missing or not a directory is reported by the cli
as a precondition failure before any traversal begins, and the scan
yields no records and touches no entries there. -/
theorem C6_invalid_root :
    ∀ S : ProjectScanner,
      mainScan S none = Except.error "Error: the path is not a valid directory." ∧
        S.scanRoot none = [] ∧ S.scanRootVisits none = [] :=
  fun _ => ⟨rfl, rfl, rfl⟩

/-- C9 counterexample: with rules `[("logs/", exclusion),
("logs/important.log", inclusion)]` over a tree containing
`logs/important.log`, the scan emits no record for that file — the claim
that it is still emitted is false. -/
theorem C9_counterexample :
    (ProjectScanner.scan scanner9 tree9).all
      (fun fc => fc.rel_path != "logs/important.log") = true := by decide

/-- C9 amended: the pruning pass removes `logs/` from traversal (the
directory itself is ignored, the later file inclusion does not rescue
it), so `logs/important.log` is neither visited nor emitted and only the
sibling `main.py` is, even though `is_path_ignored` on the file path
alone returns not-ignored. -/
theorem C9_pruned_despite_inclusion :
    Ignore.is_path_ignored ["logs"] rules9 true = true ∧
      Ignore.is_path_ignored ["logs", "important.log"] rules9 false = false ∧
      ProjectScanner.scan scanner9 tree9 =
        [{ path := ["r", "main.py"], rel_path := "main.py",
           content := "hi", token_count := 0 }] ∧
      ProjectScanner.scanVisits scanner9 tree9 = [["logs"], ["main.py"]] := by
  decide

/-- C10: a readable zero-byte file is classified as text (no NUL in the
empty sample), the fallback token estimate of empty text is 0, and when
the file passes the rule and extension checks it is emitted as a
`FileContext` with empty content and token count 0 (any encoder maps
empty text to no tokens). -/
theorem C10_empty_file :
    ∀ (S : ProjectScanner) (rel : List String) (n : String),
      S.encode "" = [] →
      ProjectScanner._is_binary_file true [] = false ∧
        Tokenizer.countFallback "" = 0 ∧
        (Ignore.is_path_ignored (rel ++ [n]) S.ignore_rules false = false →
          (S.match_all || (S.extensions.contains (suffixOf n) || S.extensions.contains n)) = true →
          S.process_file rel (.file n true []) =
            some { path := S.root_dir ++ (rel ++ [n]), rel_path := posixOf (rel ++ [n]),
                   content := "", token_count := 0 }) := by
  intro S rel n henc
  refine ⟨rfl, rfl, ?_⟩
  intro hign hext
  have hcond : (!S.match_all &&
      !(S.extensions.contains (suffixOf n) || S.extensions.contains n)) = false := by
    cases hma : S.match_all with
    | true => rfl
    | false =>
      rw [hma] at hext
      simp only [Bool.false_or] at hext
      rw [hext]
      rfl
  simp only [ProjectScanner.process_file, hign, hcond, Bool.false_eq_true, if_false]
  rw [show ProjectScanner._is_binary_file true ([] : List Nat) = false from rfl]
  simp only [Bool.false_eq_true, if_false]
  show some (FileContext.mk (S.root_dir ++ (rel ++ [n])) (posixOf (rel ++ [n]))
      ⟨[]⟩ (Tokenizer.count S.encode ⟨[]⟩)) =
    some (FileContext.mk (S.root_dir ++ (rel ++ [n])) (posixOf (rel ++ [n])) "" 0)
  have hc : Tokenizer.count S.encode ⟨[]⟩ = 0 := by
    show (S.encode ⟨[]⟩).length = 0
    rw [show (⟨[]⟩ : String) = "" from rfl, henc]
    rfl
  rw [hc]

/-- Witness for C10: a concrete empty readable file under match-all
extensions and no rules is emitted with empty content and zero tokens. -/
theorem C10_empty_file_witness :
    ProjectScanner.process_file
        { root_dir := ["r"], ignore_rules := [], extensions := ["*"],
          encode := fun _ => [] }
        [] (.file "empty.txt" true []) =
      some { path := ["r"] ++ ([] ++ ["empty.txt"]), rel_path := posixOf ([] ++ ["empty.txt"]),
             content := "", token_count := 0 } :=
  (C10_empty_file
    { root_dir := ["r"], ignore_rules := [], extensions := ["*"], encode := fun _ => [] }
    [] "empty.txt" rfl).2.2 (by decide) (by decide)

/-! ### Claim C2: directory pruning -/

theorem andE {a b : Bool} (h : (a && b) = true) : a = true ∧ b = true := by
  cases a <;> cases b <;> simp_all

theorem isPrefixOf_snoc {α : Type} [BEq α] [LawfulBEq α] (base rel : List α) (x : α)
    (h : base.isPrefixOf (rel ++ [x]) = true) :
    base = rel ++ [x] ∨ base.isPrefixOf rel = true := by
  obtain ⟨t, ht⟩ := (isPrefixOf_ex base (rel ++ [x])).1 h
  cases t with
  | nil =>
    rw [List.append_nil] at ht
    exact Or.inl ht.symm
  | cons t0 ts =>
    right
    rcases List.append_eq_append_iff.mp ht with ⟨a2, ha1, ha2⟩ | ⟨c2, hc1, hc2⟩
    · have ha0 : a2 = [] := by
        cases a2 with
        | nil => rfl
        | cons y ys => simp at ha2
      subst ha0
      rw [List.append_nil] at ha1
      exact (isPrefixOf_ex base rel).2 ⟨[], by simp [ha1]⟩
    · exact (isPrefixOf_ex base rel).2 ⟨c2, hc1⟩

theorem levelVisits_shape :
    ∀ (l : DirList) (rel p : List String),
      p ∈ ProjectScanner.levelVisits rel l → ∃ x, p = rel ++ [x]
  | .nil, rel, p => by simp [ProjectScanner.levelVisits]
  | .cons d t, rel, p => by
    simp only [ProjectScanner.levelVisits, List.mem_cons]
    rintro (h | h)
    · exact ⟨direntName d, h⟩
    · exact levelVisits_shape t rel p h

mutual
theorem walkD_visits_under (S : ProjectScanner) :
    ∀ (d : Dirent) (rel base p : List String),
      Ignore.is_path_ignored base S.ignore_rules true = true →
      Ignore.is_path_ignored (rel ++ [direntName d]) S.ignore_rules true = false →
      p ∈ (ProjectScanner.walkDirent S rel d).1 →
      isUnder base p = true →
      base.isPrefixOf rel = true
  | .file _ _ _, rel, base, p, _, _, hp, _ => by
    simp [ProjectScanner.walkDirent] at hp
  | .dir n cs, rel, base, p, hb, hkeep, hp, hu => by
    have hne : base ≠ rel ++ [n] := by
      intro he
      rw [he] at hb
      rw [show direntName (.dir n cs) = n from rfl] at hkeep
      rw [hkeep] at hb
      exact Bool.false_ne_true hb
    simp only [ProjectScanner.walkDirent, List.mem_append] at hp
    rcases hp with hp | hp
    · obtain ⟨x, rfl⟩ := levelVisits_shape cs (rel ++ [n]) p hp
      obtain ⟨h1, h2⟩ := andE hu
      rcases isPrefixOf_snoc base (rel ++ [n]) x h1 with heq | hpre
      · exfalso
        rw [heq] at h2
        simp at h2
      · rcases isPrefixOf_snoc base rel n hpre with heq | hpre2
        · exact absurd heq hne
        · exact hpre2
    · have h3 := walkL_visits_under S cs (rel ++ [n]) base p hb hp hu
      rcases isPrefixOf_snoc base rel n h3 with heq | hpre
      · exact absurd heq hne
      · exact hpre

theorem walkL_visits_under (S : ProjectScanner) :
    ∀ (l : DirList) (rel base p : List String),
      Ignore.is_path_ignored base S.ignore_rules true = true →
      p ∈ (ProjectScanner.walkList S rel l).1 →
      isUnder base p = true →
      base.isPrefixOf rel = true
  | .nil, rel, base, p, _, hp, _ => by simp [ProjectScanner.walkList] at hp
  | .cons d t, rel, base, p, hb, hp, hu => by
    by_cases hc :
      (isDirectory d && !Ignore.is_path_ignored (rel ++ [direntName d]) S.ignore_rules true) = true
    · simp only [ProjectScanner.walkList, hc, if_true, List.mem_append] at hp
      rcases hp with hp | hp
      · obtain ⟨_, hnot⟩ := andE hc
        have hkeep : Ignore.is_path_ignored (rel ++ [direntName d]) S.ignore_rules true = false := by
          cases hx : Ignore.is_path_ignored (rel ++ [direntName d]) S.ignore_rules true with
          | false => rfl
          | true => rw [hx] at hnot; exact absurd hnot (by simp)
        exact walkD_visits_under S d rel base p hb hkeep hp hu
      · exact walkL_visits_under S t rel base p hb hp hu
    · simp only [ProjectScanner.walkList, hc, if_false, Bool.false_eq_true] at hp
      exact walkL_visits_under S t rel base p hb hp hu
end

/-- C2: a directory matched as ignored is excluded from traversal
entirely — no entry strictly below it is ever visited; concretely, with
rule `node_modules/` over a tree containing
`node_modules/deep/nested/index.js` and a sibling `main.py`, the scan
emits exactly the `main.py` record and the visited entries are exactly
the root listing, none of them below `node_modules`. -/
theorem C2_directory_pruning :
    (∀ (S : ProjectScanner) (l : DirList) (base p : List String),
        base ≠ [] →
        Ignore.is_path_ignored base S.ignore_rules true = true →
        p ∈ S.scanVisits l →
        isUnder base p = false) ∧
      ProjectScanner.scan scanner2 tree2 =
        [{ path := ["r", "main.py"], rel_path := "main.py",
           content := "hi", token_count := 0 }] ∧
      ProjectScanner.scanVisits scanner2 tree2 = [["node_modules"], ["main.py"]] ∧
      (ProjectScanner.scanVisits scanner2 tree2).all
        (fun p => !isUnder ["node_modules"] p) = true := by
  refine ⟨?_, by decide, by decide, by decide⟩
  intro S l base p hbase hb hp
  cases hiu : isUnder base p with
  | false => rfl
  | true =>
    exfalso
    simp only [ProjectScanner.scanVisits, List.mem_append] at hp
    rcases hp with hp | hp
    · obtain ⟨x, rfl⟩ := levelVisits_shape l [] p hp
      obtain ⟨h1, h2⟩ := andE hiu
      rcases isPrefixOf_snoc base [] x h1 with heq | hpre
      · rw [heq] at h2; simp at h2
      · obtain ⟨t, ht⟩ := (isPrefixOf_ex base []).1 hpre
        cases base with
        | nil => exact hbase rfl
        | cons b0 bs => simp at ht
    · have h3 := walkL_visits_under S l [] base p hb hp hiu
      obtain ⟨t, ht⟩ := (isPrefixOf_ex base []).1 h3
      cases base with
      | nil => exact hbase rfl
      | cons b0 bs => simp at ht

/-- Witness for C2's general pruning statement at the concrete scanner:
the visited entry `main.py` is not below the ignored `node_modules`. -/
theorem C2_directory_pruning_witness :
    isUnder ["node_modules"] ["main.py"] = false :=
  C2_directory_pruning.1 scanner2 tree2 ["node_modules"] ["main.py"]
    (by decide) (by decide) (by decide)

/-! ### Claim C5: binary rejection -/

theorem process_file_inv (S : ProjectScanner) (rel : List String) (n : String)
    (r : Bool) (b : List Nat) (fc : FileContext)
    (h : S.process_file rel (.file n r b) = some fc) :
    fc.rel_path = posixOf (rel ++ [n]) ∧
      ProjectScanner._is_binary_file r b = false ∧
      decodeUtf8 b = some fc.content.data := by
  simp only [ProjectScanner.process_file] at h
  by_cases h1 : Ignore.is_path_ignored (rel ++ [n]) S.ignore_rules false = true
  · rw [if_pos h1] at h; exact absurd h (by simp)
  · rw [if_neg h1] at h
    by_cases h2 :
      (!S.match_all && !(S.extensions.contains (suffixOf n) || S.extensions.contains n)) = true
    · rw [if_pos h2] at h; exact absurd h (by simp)
    · rw [if_neg h2] at h
      by_cases h3 : ProjectScanner._is_binary_file r b = true
      · rw [if_pos h3] at h; exact absurd h (by simp)
      · rw [if_neg h3] at h
        have h3f : ProjectScanner._is_binary_file r b = false := by
          cases hx : ProjectScanner._is_binary_file r b with
          | false => rfl
          | true => exact absurd hx h3
        cases hd : decodeUtf8 b with
        | none => rw [hd] at h; exact absurd h (by simp)
        | some cs =>
          rw [hd] at h
          have he := Option.some.inj h
          subst he
          exact ⟨rfl, h3f, rfl⟩

theorem levelRecs_inv (S : ProjectScanner) :
    ∀ (l : DirList) (rel : List String) (fc : FileContext),
      fc ∈ ProjectScanner.levelRecs S rel l →
      ∃ f, f ∈ filesOfL rel l ∧ fc.rel_path = posixOf f.segs ∧
        ProjectScanner._is_binary_file f.readable f.bytes = false ∧
        decodeUtf8 f.bytes = some fc.content.data
  | .nil, rel, fc, h => by simp [ProjectScanner.levelRecs] at h
  | .cons d t, rel, fc, h => by
    cases d with
    | file n r b =>
      rw [show ProjectScanner.levelRecs S rel (.cons (.file n r b) t) =
          (match S.process_file rel (.file n r b) with
           | some fc2 => fc2 :: ProjectScanner.levelRecs S rel t
           | none => ProjectScanner.levelRecs S rel t) from rfl] at h
      cases hp : S.process_file rel (.file n r b) with
      | some fc2 =>
        rw [hp] at h
        rw [List.mem_cons] at h
        rcases h with rfl | h
        · obtain ⟨e1, e2, e3⟩ := process_file_inv S rel n r b fc hp
          refine ⟨⟨rel ++ [n], r, b⟩, ?_, e1, e2, e3⟩
          rw [show filesOfL rel (.cons (.file n r b) t) =
              filesOfD rel (.file n r b) ++ filesOfL rel t from rfl]
          exact List.mem_append_left _ (by simp [filesOfD])
        · obtain ⟨f, hf, hrest⟩ := levelRecs_inv S t rel fc h
          refine ⟨f, ?_, hrest⟩
          rw [show filesOfL rel (.cons (.file n r b) t) =
              filesOfD rel (.file n r b) ++ filesOfL rel t from rfl]
          exact List.mem_append_right _ hf
      | none =>
        rw [hp] at h
        obtain ⟨f, hf, hrest⟩ := levelRecs_inv S t rel fc h
        refine ⟨f, ?_, hrest⟩
        rw [show filesOfL rel (.cons (.file n r b) t) =
            filesOfD rel (.file n r b) ++ filesOfL rel t from rfl]
        exact List.mem_append_right _ hf
    | dir n cs =>
      rw [show ProjectScanner.levelRecs S rel (.cons (.dir n cs) t) =
          ProjectScanner.levelRecs S rel t from rfl] at h
      obtain ⟨f, hf, hrest⟩ := levelRecs_inv S t rel fc h
      refine ⟨f, ?_, hrest⟩
      rw [show filesOfL rel (.cons (.dir n cs) t) =
          filesOfD rel (.dir n cs) ++ filesOfL rel t from rfl]
      exact List.mem_append_right _ hf

mutual
theorem walkD_recs_inv (S : ProjectScanner) :
    ∀ (d : Dirent) (rel : List String) (fc : FileContext),
      fc ∈ (ProjectScanner.walkDirent S rel d).2 →
      ∃ f, f ∈ filesOfD rel d ∧ fc.rel_path = posixOf f.segs ∧
        ProjectScanner._is_binary_file f.readable f.bytes = false ∧
        decodeUtf8 f.bytes = some fc.content.data
  | .file n r b, rel, fc, h => by simp [ProjectScanner.walkDirent] at h
  | .dir n cs, rel, fc, h => by
    simp only [ProjectScanner.walkDirent, List.mem_append] at h
    rcases h with h | h
    · exact levelRecs_inv S cs (rel ++ [n]) fc h
    · exact walkL_recs_inv S cs (rel ++ [n]) fc h

theorem walkL_recs_inv (S : ProjectScanner) :
    ∀ (l : DirList) (rel : List String) (fc : FileContext),
      fc ∈ (ProjectScanner.walkList S rel l).2 →
      ∃ f, f ∈ filesOfL rel l ∧ fc.rel_path = posixOf f.segs ∧
        ProjectScanner._is_binary_file f.readable f.bytes = false ∧
        decodeUtf8 f.bytes = some fc.content.data
  | .nil, rel, fc, h => by simp [ProjectScanner.walkList] at h
  | .cons d t, rel, fc, h => by
    by_cases hc :
      (isDirectory d && !Ignore.is_path_ignored (rel ++ [direntName d]) S.ignore_rules true) = true
    · simp only [ProjectScanner.walkList, hc, if_true, List.mem_append] at h
      rcases h with h | h
      · obtain ⟨f, hf, hrest⟩ := walkD_recs_inv S d rel fc h
        refine ⟨f, ?_, hrest⟩
        rw [show filesOfL rel (.cons d t) = filesOfD rel d ++ filesOfL rel t from rfl]
        exact List.mem_append_left _ hf
      · obtain ⟨f, hf, hrest⟩ := walkL_recs_inv S t rel fc h
        refine ⟨f, ?_, hrest⟩
        rw [show filesOfL rel (.cons d t) = filesOfD rel d ++ filesOfL rel t from rfl]
        exact List.mem_append_right _ hf
    · simp only [ProjectScanner.walkList, hc, if_false, Bool.false_eq_true] at h
      obtain ⟨f, hf, hrest⟩ := walkL_recs_inv S t rel fc h
      refine ⟨f, ?_, hrest⟩
      rw [show filesOfL rel (.cons d t) = filesOfD rel d ++ filesOfL rel t from rfl]
      exact List.mem_append_right _ hf
end

/-- C5: the binary classifier is true exactly when a NUL byte occurs in
the first 1024 bytes or the file cannot be opened/read, and every record
of every scan output originates from a file the classifier marked as
non-binary (so a binary-classified file never appears in the output,
regardless of rule or extension matches). -/
theorem C5_binary_rejection :
    (∀ (r : Bool) (b : List Nat),
        ProjectScanner._is_binary_file r b = (!r || (b.take 1024).contains 0)) ∧
      ∀ (S : ProjectScanner) (l : DirList) (fc : FileContext),
        fc ∈ S.scan l →
        ∃ f, f ∈ filesOfL [] l ∧ fc.rel_path = posixOf f.segs ∧
          ProjectScanner._is_binary_file f.readable f.bytes = false ∧
          decodeUtf8 f.bytes = some fc.content.data := by
  constructor
  · intro r b; cases r <;> rfl
  · intro S l fc h
    rw [show S.scan l =
        ProjectScanner.levelRecs S [] l ++ (ProjectScanner.walkList S [] l).2 from rfl,
      List.mem_append] at h
    rcases h with h | h
    · exact levelRecs_inv S l [] fc h
    · exact walkL_recs_inv S l [] fc h

/-- Witness for C5: the one record of the concrete scan (tree with a
text file and a binary file) comes from a non-binary file. -/
theorem C5_binary_rejection_witness :
    ∃ f, f ∈ filesOfL [] tree5 ∧
      (FileContext.mk ["r", "main.py"] "main.py" "hi" 0).rel_path = posixOf f.segs ∧
      ProjectScanner._is_binary_file f.readable f.bytes = false ∧
      decodeUtf8 f.bytes = some (FileContext.mk ["r", "main.py"] "main.py" "hi" 0).content.data :=
  C5_binary_rejection.2 scanner5 tree5 (FileContext.mk ["r", "main.py"] "main.py" "hi" 0)
    (by decide)

/-! ### Claim C7: default not ignored, empty-RuleSet completeness -/

theorem nameOf_snoc (xs : List String) (x : String) : nameOf (xs ++ [x]) = x :=
  List.getLastD_concat _ _ _

theorem process_file_emits (S : ProjectScanner) (rel : List String) (n : String)
    (r : Bool) (b : List Nat) (cs : List Char)
    (hrules : S.ignore_rules = [])
    (hbin : ProjectScanner._is_binary_file r b = false)
    (hdec : decodeUtf8 b = some cs)
    (hext : (S.match_all ||
      (S.extensions.contains (suffixOf n) || S.extensions.contains n)) = true) :
    S.process_file rel (.file n r b) =
      some (FileContext.mk (S.root_dir ++ (rel ++ [n])) (posixOf (rel ++ [n]))
        ⟨cs⟩ (Tokenizer.count S.encode ⟨cs⟩)) := by
  have hign : Ignore.is_path_ignored (rel ++ [n]) S.ignore_rules false = false := by
    rw [hrules]; rfl
  have hcond : (!S.match_all &&
      !(S.extensions.contains (suffixOf n) || S.extensions.contains n)) = false := by
    cases hma : S.match_all with
    | true => rfl
    | false =>
      rw [hma] at hext
      simp only [Bool.false_or] at hext
      rw [hext]
      rfl
  simp only [ProjectScanner.process_file, hign, hcond, hbin, Bool.false_eq_true, if_false, hdec]

mutual
theorem walkD_complete (S : ProjectScanner) (hrules : S.ignore_rules = []) :
    ∀ (d : Dirent) (rel : List String) (f : FoundFile) (cs : List Char),
      isDirectory d = true →
      f ∈ filesOfD rel d →
      ProjectScanner._is_binary_file f.readable f.bytes = false →
      decodeUtf8 f.bytes = some cs →
      (S.match_all || (S.extensions.contains (suffixOf (nameOf f.segs)) ||
        S.extensions.contains (nameOf f.segs))) = true →
      ∃ fc, fc ∈ (ProjectScanner.walkDirent S rel d).2 ∧
        fc.rel_path = posixOf f.segs ∧ fc.content = ⟨cs⟩
  | .file _ _ _, _, _, _, hdir, _, _, _, _ => by simp [isDirectory] at hdir
  | .dir n cs2, rel, f, cs, _, hf, hbin, hdec, hext => by
    obtain ⟨fc, hmem, hrest⟩ :=
      walkLevel_complete S hrules cs2 (rel ++ [n]) f cs hf hbin hdec hext
    refine ⟨fc, ?_, hrest⟩
    rw [show (ProjectScanner.walkDirent S rel (.dir n cs2)).2 =
        ProjectScanner.levelRecs S (rel ++ [n]) cs2 ++
          (ProjectScanner.walkList S (rel ++ [n]) cs2).2 from rfl]
    exact hmem

theorem walkLevel_complete (S : ProjectScanner) (hrules : S.ignore_rules = []) :
    ∀ (l : DirList) (rel : List String) (f : FoundFile) (cs : List Char),
      f ∈ filesOfL rel l →
      ProjectScanner._is_binary_file f.readable f.bytes = false →
      decodeUtf8 f.bytes = some cs →
      (S.match_all || (S.extensions.contains (suffixOf (nameOf f.segs)) ||
        S.extensions.contains (nameOf f.segs))) = true →
      ∃ fc, fc ∈ ProjectScanner.levelRecs S rel l ++ (ProjectScanner.walkList S rel l).2 ∧
        fc.rel_path = posixOf f.segs ∧ fc.content = ⟨cs⟩
  | .nil, rel, f, cs, hf, _, _, _ => by simp [filesOfL] at hf
  | .cons d t, rel, f, cs, hf, hbin, hdec, hext => by
    rw [show filesOfL rel (.cons d t) = filesOfD rel d ++ filesOfL rel t from rfl,
      List.mem_append] at hf
    rcases hf with hf | hf
    · cases d with
      | file n r b =>
        have hfe : f = ⟨rel ++ [n], r, b⟩ := by simpa [filesOfD] using hf
        subst hfe
        rw [show FoundFile.segs ⟨rel ++ [n], r, b⟩ = rel ++ [n] from rfl,
          nameOf_snoc rel n] at hext
        have hemit := process_file_emits S rel n r b cs hrules hbin hdec hext
        refine ⟨FileContext.mk (S.root_dir ++ (rel ++ [n])) (posixOf (rel ++ [n]))
          ⟨cs⟩ (Tokenizer.count S.encode ⟨cs⟩), ?_, rfl, rfl⟩
        rw [List.mem_append]
        left
        rw [show ProjectScanner.levelRecs S rel (.cons (.file n r b) t) =
            (match S.process_file rel (.file n r b) with
             | some fc2 => fc2 :: ProjectScanner.levelRecs S rel t
             | none => ProjectScanner.levelRecs S rel t) from rfl]
        rw [hemit]
        exact List.mem_cons_self _ _
      | dir n cs3 =>
        have hcond : (isDirectory (.dir n cs3) &&
            !Ignore.is_path_ignored (rel ++ [direntName (.dir n cs3)]) S.ignore_rules true)
              = true := by
          rw [hrules]; rfl
        obtain ⟨fc, hmem, hrest⟩ :=
          walkD_complete S hrules (.dir n cs3) rel f cs rfl hf hbin hdec hext
        refine ⟨fc, ?_, hrest⟩
        rw [List.mem_append]
        right
        simp only [ProjectScanner.walkList, hcond, if_true, List.mem_append]
        exact Or.inl hmem
    · obtain ⟨fc, hmem, hrest⟩ := walkLevel_complete S hrules t rel f cs hf hbin hdec hext
      rw [List.mem_append] at hmem
      refine ⟨fc, ?_, hrest⟩
      rw [List.mem_append]
      rcases hmem with hm | hm
      · left
        rw [show ProjectScanner.levelRecs S rel (.cons d t) =
            (match S.process_file rel d with
             | some fc2 => fc2 :: ProjectScanner.levelRecs S rel t
             | none => ProjectScanner.levelRecs S rel t) from rfl]
        cases hp : S.process_file rel d with
        | some fc2 => exact List.mem_cons_of_mem _ hm
        | none => exact hm
      · right
        by_cases hc : (isDirectory d &&
            !Ignore.is_path_ignored (rel ++ [direntName d]) S.ignore_rules true) = true
        · simp only [ProjectScanner.walkList, hc, if_true, List.mem_append]
          exact Or.inr hm
        · simp only [ProjectScanner.walkList, hc, if_false, Bool.false_eq_true]
          exact hm
end

/-- C7: a path matched by no rule is not ignored — for the empty rule
list `is_path_ignored` is false for every path — and a scan with an
empty rule list emits every file of the tree that passes the extension
check, the binary check and UTF-8 decoding. -/
theorem C7_default_not_ignored :
    (∀ segs : List String, Cli.is_path_ignored segs [] = false) ∧
      (∀ (segs : List String) (rules : List (String × Bool)),
          (∀ r ∈ rules, Cli.rule_match segs r.1 = false) →
          Cli.is_path_ignored segs rules = false) ∧
      ∀ (S : ProjectScanner) (l : DirList) (f : FoundFile) (cs : List Char),
        S.ignore_rules = [] →
        f ∈ filesOfL [] l →
        ProjectScanner._is_binary_file f.readable f.bytes = false →
        decodeUtf8 f.bytes = some cs →
        (S.match_all || (S.extensions.contains (suffixOf (nameOf f.segs)) ||
          S.extensions.contains (nameOf f.segs))) = true →
        ∃ fc, fc ∈ S.scan l ∧ fc.rel_path = posixOf f.segs ∧ fc.content = ⟨cs⟩ := by
  refine ⟨fun segs => rfl, ?_, ?_⟩
  · intro segs rules hno
    unfold Cli.is_path_ignored
    rw [foldl_last_match]
    have hnone : rules.reverse.find? (fun r => Cli.rule_match segs r.1) = none := by
      rw [List.find?_eq_none]
      intro x hx
      rw [hno x (List.mem_reverse.mp hx)]
      simp
    rw [hnone]
  · intro S l f cs hrules hf hbin hdec hext
    exact walkLevel_complete S hrules l [] f cs hf hbin hdec hext

/-- Witness for C7: in the concrete rule-free scan, the text file
`main.py` is emitted with its decoded content. -/
theorem C7_default_not_ignored_witness :
    ∃ fc, fc ∈ ProjectScanner.scan scanner5 tree5 ∧
      fc.rel_path = posixOf ["main.py"] ∧ fc.content = ⟨['h', 'i']⟩ :=
  C7_default_not_ignored.2.2 scanner5 tree5 ⟨["main.py"], true, [104, 105]⟩ ['h', 'i']
    rfl (by decide) (by decide) (by decide) (by decide)

/-! ### Claim C8: the scan is a function of the tree, not of listing order -/

theorem perm_append_swap {α : Type} (a b c : List α) :
    (a ++ (b ++ c)).Perm (b ++ (a ++ c)) := by
  rw [← List.append_assoc, ← List.append_assoc]
  exact (List.perm_append_comm).append_right c

theorem EquivD.name_eq {d d2 : Dirent} (h : EquivD d d2) :
    direntName d = direntName d2 := by
  cases h <;> rfl

theorem EquivD.isDir_eq {d d2 : Dirent} (h : EquivD d d2) :
    isDirectory d = isDirectory d2 := by
  cases h <;> rfl

theorem EquivD.process_eq (S : ProjectScanner) (rel : List String) {d d2 : Dirent}
    (h : EquivD d d2) : S.process_file rel d = S.process_file rel d2 := by
  cases h <;> rfl

/-- Listing-order invariance of the walk: over `EquivL`-related trees the
per-level records and the deep records are permutations of each other
(and over `EquivD`-related entries so are the records below them). -/
theorem equivPerm (S : ProjectScanner) (l l2 : DirList) (h : EquivL l l2) :
    ∀ rel : List String,
      (ProjectScanner.levelRecs S rel l).Perm (ProjectScanner.levelRecs S rel l2) ∧
      ((ProjectScanner.walkList S rel l).2).Perm ((ProjectScanner.walkList S rel l2).2) := by
  refine @EquivL.rec
    (fun d d2 _ => ∀ rel : List String,
      ((ProjectScanner.walkDirent S rel d).2).Perm ((ProjectScanner.walkDirent S rel d2).2))
    (fun l l2 _ => ∀ rel : List String,
      (ProjectScanner.levelRecs S rel l).Perm (ProjectScanner.levelRecs S rel l2) ∧
      ((ProjectScanner.walkList S rel l).2).Perm ((ProjectScanner.walkList S rel l2).2))
    ?_ ?_ ?_ ?_ ?_ ?_ l l2 h
  · exact fun n r b rel => .refl _
  · intro n cs cs2 hcs IH rel
    show (ProjectScanner.levelRecs S (rel ++ [n]) cs ++
        (ProjectScanner.walkList S (rel ++ [n]) cs).2).Perm
      (ProjectScanner.levelRecs S (rel ++ [n]) cs2 ++
        (ProjectScanner.walkList S (rel ++ [n]) cs2).2)
    exact ((IH (rel ++ [n])).1).append ((IH (rel ++ [n])).2)
  · exact fun rel => ⟨.refl _, .refl _⟩
  · intro d d2 l0 l02 hD hL IHd IHl rel
    constructor
    · rw [show ProjectScanner.levelRecs S rel (.cons d l0) =
          (match S.process_file rel d with
           | some fc => fc :: ProjectScanner.levelRecs S rel l0
           | none => ProjectScanner.levelRecs S rel l0) from rfl,
        show ProjectScanner.levelRecs S rel (.cons d2 l02) =
          (match S.process_file rel d2 with
           | some fc => fc :: ProjectScanner.levelRecs S rel l02
           | none => ProjectScanner.levelRecs S rel l02) from rfl,
        ← EquivD.process_eq S rel hD]
      cases hp : S.process_file rel d with
      | some fc => exact .cons fc (IHl rel).1
      | none => exact (IHl rel).1
    · have hname := EquivD.name_eq hD
      have hdir := EquivD.isDir_eq hD
      by_cases hc : (isDirectory d &&
          !Ignore.is_path_ignored (rel ++ [direntName d]) S.ignore_rules true) = true
      · have hc2 : (isDirectory d2 &&
            !Ignore.is_path_ignored (rel ++ [direntName d2]) S.ignore_rules true) = true := by
          rw [← hname, ← hdir]; exact hc
        simp only [ProjectScanner.walkList, hc, hc2, if_true]
        exact (IHd rel).append (IHl rel).2
      · have hc2 : ¬(isDirectory d2 &&
            !Ignore.is_path_ignored (rel ++ [direntName d2]) S.ignore_rules true) = true := by
          rw [← hname, ← hdir]; exact hc
        simp only [ProjectScanner.walkList, hc, hc2, if_false, Bool.false_eq_true]
        exact (IHl rel).2
  · intro d e l0 rel
    constructor
    · simp only [ProjectScanner.levelRecs]
      cases hpd : S.process_file rel d <;> cases hpe : S.process_file rel e
      · exact .refl _
      · exact .refl _
      · exact .refl _
      · exact List.Perm.swap _ _ _
    · by_cases hcd : (isDirectory d &&
          !Ignore.is_path_ignored (rel ++ [direntName d]) S.ignore_rules true) = true <;>
        by_cases hce : (isDirectory e &&
          !Ignore.is_path_ignored (rel ++ [direntName e]) S.ignore_rules true) = true
      · simp only [ProjectScanner.walkList, hcd, hce, if_true]
        exact perm_append_swap _ _ _
      · simp only [ProjectScanner.walkList, hcd, hce, if_true, if_false, Bool.false_eq_true]
        exact .refl _
      · simp only [ProjectScanner.walkList, hcd, hce, if_true, if_false, Bool.false_eq_true]
        exact .refl _
      · simp only [ProjectScanner.walkList, hcd, hce, if_false, Bool.false_eq_true]
        exact .refl _
  · intro a b c h1 h2 IH1 IH2 rel
    exact ⟨((IH1 rel).1).trans (IH2 rel).1, ((IH1 rel).2).trans (IH2 rel).2⟩

mutual
theorem EquivD_refl : ∀ d : Dirent, EquivD d d
  | .file n r b => .file n r b
  | .dir n cs => .dir n (EquivL_refl cs)

theorem EquivL_refl : ∀ l : DirList, EquivL l l
  | .nil => .nil
  | .cons d t => .cons (EquivD_refl d) (EquivL_refl t)
end

/-- C8: the scan is deterministic in the tree: over an unchanged tree —
the second run may list each directory's children in a different order —
two runs with the same rules and extension set produce the same records
up to order (a permutation, hence identical output sets). -/
theorem C8_scan_determined_by_tree :
    (∀ l : DirList, EquivL l l) ∧
      ∀ (S : ProjectScanner) (l l2 : DirList), EquivL l l2 →
        (S.scan l).Perm (S.scan l2) := by
  refine ⟨EquivL_refl, ?_⟩
  intro S l l2 h
  exact ((equivPerm S l l2 h []).1).append ((equivPerm S l l2 h []).2)

/-- Witness for C8: scanning the concrete two-file tree and the same
tree listed in the opposite order yields permutation-equal records. -/
theorem C8_scan_determined_by_tree_witness :
    (ProjectScanner.scan scanner5 tree5).Perm
      (ProjectScanner.scan scanner5
        (dlist
          [ .file "logo.png" true [137, 80, 78, 71, 0, 13]
          , .file "main.py" true [104, 105] ])) :=
  C8_scan_determined_by_tree.2 scanner5 tree5 _ (EquivL.swap _ _ _)
